import Mathlib

/-!
Verification development for the juvix-cairo-vm input-encoding and hint layer.

The Rust sources embedded here are:
  * src/program_input.rs            (Value, ProgramInput, value_from_json)
  * src/juvix_hint_processor/hint_parser.rs    (nom-based hint grammar)
  * src/juvix_hint_processor/hint_processor.rs (JuvixHintProcessor: Alloc /
    Input / RandomEcPoint execution, the recursive memory-layout encoder,
    and the elliptic-curve point sampler)

External collaborators (the cairo-vm `VirtualMachine` memory primitives,
`ark_ff` field arithmetic, `serde_json`) are modelled by their documented
contracts, as noted at each definition.
-/

namespace JuvixCairoVm

set_option maxRecDepth 16000

/-- The STARK prime: the modulus configured by `#[modulus = ...]` for `Fq`
in hint_processor.rs, which is also the `Felt252` modulus. -/
def P : Nat := 3618502788666131213697322783095070105623107215331596699973092056135872020481

/-- `get_beta` from hint_processor.rs: the Beta constant of the Starkware
elliptic curve, returned as a decimal literal. -/
def get_beta : Nat := 3141592653589793238462643383279502884197169399375105820974944592307816406665

/-- A relocatable address: a (segment index, offset) pair, mirroring
`cairo_vm::types::relocatable::Relocatable`. Offsets are modelled as `Nat`
(the Rust `usize` overflow error path is never reached by the inputs
considered here). -/
structure Reloc where
  seg : Nat
  off : Nat
deriving DecidableEq, Repr

/-- Advance a relocatable address by an offset, mirroring `Relocatable + usize`. -/
def Reloc.addOff (a : Reloc) (n : Nat) : Reloc := ⟨a.seg, a.off + n⟩

/-- A memory cell value: either a field element or a relocatable address,
mirroring `MaybeRelocatable`. -/
inductive MRel where
  | int (n : Nat)
  | rel (r : Reloc)
deriving DecidableEq, Repr

/-- Error outcomes surfaced by the embedded operations. `inconsistentMemory`
models `MemoryError::InconsistentMemory` from a conflicting write;
`missingInput` models the Rust `HashMap` index panic in `ProgramInput::get`;
`customHint` models `HintError::CustomHint` (the sqrt failure);
`outOfFuel` marks exhaustion of the fuel bounding the (structural) Rust
recursion and is never produced when the fuel exceeds the value depth. -/
inductive Err where
  | inconsistentMemory
  | mathError
  | missingInput
  | customHint
  | outOfFuel
deriving DecidableEq, Repr

/-- The VM memory, as the association list of cells written so far. -/
def Memory := List (Reloc × MRel)

instance : DecidableEq Memory := inferInstanceAs (DecidableEq (List (Reloc × MRel)))

instance : Repr Memory := inferInstanceAs (Repr (List (Reloc × MRel)))

/-- Look up the value stored at an address. -/
def Memory.lookup : Memory → Reloc → Option MRel
  | [], _ => none
  | (a, v) :: m, b => if b = a then some v else Memory.lookup m b

/-- The virtual-machine state visible to the hint processor: the write-once
memory, the next fresh segment index (`add_memory_segment`), and the current
`ap` register (`get_ap`). -/
structure Vm where
  mem : Memory
  nextSeg : Nat
  ap : Reloc
deriving DecidableEq, Repr

/-- `vm.add_memory_segment()`: returns the base of a fresh segment and the
grown machine. -/
def Vm.addMemorySegment (vm : Vm) : Reloc × Vm :=
  (⟨vm.nextSeg, 0⟩, { vm with nextSeg := vm.nextSeg + 1 })

/-- `vm.insert_value(addr, v)`: cairo-vm memory is write-once — writing a
cell that already holds a different value fails with an inconsistent-memory
error, rewriting the same value succeeds. -/
def Vm.insertValue (vm : Vm) (a : Reloc) (v : MRel) : Except Err Vm :=
  match vm.mem.lookup a with
  | some w => if w = v then .ok vm else .error .inconsistentMemory
  | none => .ok { vm with mem := (a, v) :: vm.mem }

/-- Relocatable subtraction `addr1 - addr2`, failing (Math error) unless the
segments agree and the offset difference is non-negative. -/
def Reloc.subR (a b : Reloc) : Except Err Nat :=
  if a.seg = b.seg ∧ b.off ≤ a.off then .ok (a.off - b.off) else .error .mathError

/-- `Value` from program_input.rs: the tagged program-input union. `Felt252`
payloads are field elements, modelled as `Nat` (values below `P` by
construction); `IndexMap<String, Value>` is an insertion-ordered map,
modelled as an ordered association list. -/
inductive Value where
  | felt (n : Nat)
  | bool (b : Bool)
  | record (fields : List (String × Value))
  | list (elems : List Value)
deriving Repr

/-- Modelled from the spec: the `Hint` enum (its declaring file
`juvix_hint_processor/hint.rs` is not among the provided sources; its three
variants are fixed by spec §3 and by the exhaustive matches in
hint_parser.rs and hint_processor.rs): `Alloc(size)`, `Input(name)`,
`RandomEcPoint`. -/
inductive Hint where
  | alloc (size : Nat)
  | input (name : String)
  | randomEcPoint
deriving DecidableEq, Repr

/-- The recursive memory-layout encoder. This single fuelled function merges
the mutually recursive Rust functions `read_value_input`, `read_felt_input`,
`read_bool_input`, `read_record_input`, `read_list_input` and
`read_pointer_value_input` from hint_processor.rs, which recurse
structurally on the `Value`; `fuel` bounds that recursion depth (any
`fuel ≥ Value.depthOf val` behaves identically to the Rust recursion).
Returns the machine after the writes together with the number of memory
words reported by the Rust function. -/
def readValueInput : Nat → Vm → Reloc → Value → Except Err (Vm × Nat)
  | 0, _, _, _ => .error .outOfFuel
  | fuel + 1, vm, addr, val =>
    -- read_pointer_value_input(vm, addr1, addr2, val): writes a pointer and
    -- the recursively encoded body for records/lists, scalars inline.
    let step : Vm → Reloc → Reloc → Value → Except Err (Vm × Reloc) :=
      fun vm addr1 addr2 val =>
        match val with
        | .record _ | .list _ => do
          let vm ← vm.insertValue addr1 (.rel addr2)
          let (vm, sz) ← readValueInput fuel vm addr2 val
          .ok (vm, addr2.addOff sz)
        | _ => do
          let (vm, _) ← readValueInput fuel vm addr1 val
          .ok (vm, addr2)
    match val with
    | .felt v => do
      -- read_felt_input: the field element is written inline; 1 word.
      let vm ← vm.insertValue addr (.int v)
      .ok (vm, 1)
    | .bool v => do
      -- read_bool_input: `if v { 0 } else { 1 }` — the inverted mapping.
      let vm ← vm.insertValue addr (.int (if v then 0 else 1))
      .ok (vm, 1)
    | .record fields => do
      -- read_record_input: header tag 0, then the indexed field loop.
      let vm ← vm.insertValue addr (.int 0)
      -- "free address after record": addr + fields.len() in the source.
      let start : Reloc := addr.addOff fields.length
      let (vm, addr1, _) ← fields.foldlM
        (fun (st : Vm × Reloc × Nat) (field : String × Value) => do
          let (vm, addr1, i) := st
          let addr0 := addr.addOff (i + 1)
          let (vm, addr1') ← step vm addr0 addr1 field.2
          .ok (vm, addr1', i + 1))
        (vm, start, 0)
      let sz ← addr1.subR addr
      .ok (vm, sz)
    | .list elems => do
      -- read_list_input: a chain of 3-cell cons nodes, then a nil cell.
      let (vm, addr1) ← elems.foldlM
        (fun (st : Vm × Reloc) (v : Value) => do
          let (vm, addr1) := st
          let addr2 := addr1.addOff 3
          let vm ← vm.insertValue addr1 (.int 1)
          let (vm, addr2) ← step vm (addr1.addOff 1) addr2 v
          let vm ← vm.insertValue (addr1.addOff 2) (.rel addr2)
          .ok (vm, addr2))
        (vm, addr)
      let vm ← vm.insertValue addr1 (.int 0)
      let sz ← addr1.subR addr
      .ok (vm, sz + 1)

/-! ### The elliptic-curve point sampler (`random_ec_point`)

`Fq` in hint_processor.rs is the prime field with modulus `P` and configured
generator `3`. The `ark_ff` field operations used by `random_ec_point` are
modelled over `Nat` with explicit reduction `% P`. -/

/-- Fuel-bounded square-and-multiply: `powModAux fuel b e acc` computes
`acc * b ^ e % P` for `fuel` ≥ the bit length of `e`. -/
def powModAux : Nat → Nat → Nat → Nat → Nat
  | 0, _, _, acc => acc
  | fuel + 1, b, e, acc =>
    if e = 0 then acc
    else powModAux fuel (b * b % P) (e / 2) (if e % 2 = 1 then acc * b % P else acc)

/-- `a ^ e` in the field `Fq` (260 fuel covers every exponent below `2 ^ 260`,
in particular all exponents used by the sampler). -/
def powMod (a e : Nat) : Nat := powModAux 260 (a % P) e 1

/-- `r.legendre().is_qr()` from ark_ff: the Euler criterion
`r ^ ((P - 1) / 2) = 1`; zero and non-residues (criterion value `0` or
`P - 1`) are not quadratic residues. -/
def legendreIsQR (r : Nat) : Bool := powMod r ((P - 1) / 2) = 1

/-- The odd part `Q` of `P - 1 = Q * 2 ^ 192` (so `Q = 2 ^ 59 + 17`). -/
def tsQ : Nat := (P - 1) / 2 ^ 192

/-- `n` successive squarings in the field. -/
def sqIter : Nat → Nat → Nat
  | 0, c => c
  | n + 1, c => sqIter n (c * c % P)

/-- Least `i` (below `fuel`) with `t ^ (2 ^ i) = 1` in the field. -/
def sqScan : Nat → Nat → Nat
  | 0, _ => 0
  | fuel + 1, t => if t = 1 then 0 else sqScan fuel (t * t % P) + 1

/-- The Tonelli–Shanks main loop (state `M`, `c`, `t`, `R`); `M` strictly
decreases, so fuel `192` suffices for this field. -/
def tsLoop : Nat → Nat → Nat → Nat → Nat → Nat
  | 0, _, _, _, r => r
  | fuel + 1, m, c, t, r =>
    if t = 1 then r
    else
      let i := sqScan 193 t
      let b := sqIter (m - i - 1) c
      tsLoop fuel i (b * b % P) (t * (b * b % P) % P) (r * b % P)

/-- The Tonelli–Shanks square-root candidate for `r`, using the configured
generator `3` as the quadratic non-residue. -/
def tonelliShanks (r : Nat) : Nat :=
  tsLoop 193 192 (powMod 3 tsQ) (powMod r tsQ) (powMod r ((tsQ + 1) / 2))

/-- Return a square-root candidate `c` only when its square really is `r`
(the final verification ark_ff's Tonelli–Shanks sqrt performs before
returning `Some`). -/
def checkedSqrt (c r : Nat) : Option Nat :=
  if c * c % P = r % P then some c else none

/-- `ark_ff`'s `Fq::sqrt` (an external collaborator), modelled by its
contract: a Tonelli–Shanks candidate is returned only when its square is the
argument, and `none` is returned otherwise — mirroring the `Option` result
the Rust code unwraps with a "Failed to compute sqrt" hint error. -/
def fqSqrt (r : Nat) : Option Nat :=
  checkedSqrt (tonelliShanks (r % P)) r

/-- `random_x * random_x * random_x + random_x + beta` in `Fq`: the
right-hand side of the curve equation, in the source's evaluation order. -/
def curveRhs (x : Nat) : Nat := ((x * x % P) * x % P + x + get_beta) % P

/-- The acceptance loop of `random_ec_point`: draw `x`, accept when
`x³ + x + β` is a quadratic residue. `draw i` is the `i`-th value produced
by the ark `UniformRand` instance on the function's rng; `fuel` bounds the
number of trials (the Rust loop is unbounded; `none` models
non-termination within the bound). Returns the `(random_x,
random_y_squared)` pair the Rust `break` produces. -/
def sampleXLoop (draw : Nat → Nat) : Nat → Nat → Option (Nat × Nat)
  | _, 0 => none
  | i, fuel + 1 =>
    let x := draw i % P
    let r := curveRhs x
    if legendreIsQR r then some (x, r) else sampleXLoop draw (i + 1) fuel

/-- The point produced by `random_ec_point` for a given rng draw stream:
the accepted `x` together with `y = sqrt (x³ + x + β)`. `none` covers both
non-termination of the acceptance loop within `fuel` and the (unreachable)
sqrt failure that the Rust code turns into a custom hint error. -/
def randomEcPointSample (draw : Nat → Nat) (fuel : Nat) : Option (Nat × Nat) :=
  match sampleXLoop draw 0 fuel with
  | none => none
  | some (x, r) =>
    match fqSqrt r with
    | none => none
    | some y => some (x, y)

/-- `ark_std::test_rng()` (an external collaborator): it returns a `StdRng`
seeded with a fixed compile-time constant — the seed depends on nothing in
the process or the machine state. The constant is modelled as `0`. -/
def testRngSeed : Nat := 0

/-- Stand-in pseudo-random step for the `StdRng` stream (an LCG; the
claim-relevant structure — a pure function of the fixed seed — is the
source's; the concrete permutation is not). -/
def lcgNext (s : Nat) : Nat :=
  (6364136223846793005 * s + 1442695040888963407) % 2 ^ 64

/-- Iterated rng stepping. -/
def lcgIter : Nat → Nat → Nat
  | 0, s => s
  | n + 1, s => lcgIter n (lcgNext s)

/-- The `i`-th draw of the rng constructed inside `random_ec_point`:
`let mut rng = ark_std::test_rng();` seeds it with the fixed constant at
every call, so the stream is the same at every call in every run. -/
def testRngDraw (i : Nat) : Nat := lcgIter (i + 1) testRngSeed

/-- Trial bound used when executing the hint (ark's expected trial count
is ≈ 2; the bound only models non-termination, which never occurs). -/
def ecFuel : Nat := 30

/-- The sampled pair used by one execution of the `RandomEcPoint` hint in
machine state `vm`. The Rust `random_ec_point(&self, vm)` reads nothing
from `self` or `vm` to produce the point — the rng is freshly constructed
inside the call — hence the `vm` argument is unused, exactly as in the
source. -/
def randomEcPointPairOf (_vm : Vm) : Option (Nat × Nat) :=
  randomEcPointSample testRngDraw ecFuel

/-- `random_ec_point`: sample the point, then write `x` at `ap` and `y` at
`ap + 1`. -/
def randomEcPointHint (vm : Vm) : Except Err Vm :=
  match randomEcPointPairOf vm with
  | none => .error .customHint
  | some (x, y) => do
    let vm ← vm.insertValue vm.ap (.int x)
    let vm ← vm.insertValue (vm.ap.addOff 1) (.int y)
    .ok vm

/-! ### The hint execution engine -/

/-- `MemoryExecScope` threaded through `ExecutionScopes`: the first free
address of the constants segment, absent until the first `Alloc`. -/
structure Scopes where
  memoryExecScope : Option Reloc
deriving DecidableEq, Repr

/-- `ProgramInput`: the name → value table (a Rust `HashMap` built once
from JSON, modelled as an association list; keys are unique). -/
def ProgramInput := List (String × Value)

/-- Table lookup; the Rust `ProgramInput::get` indexes the `HashMap`
directly (`&self.input_values[var]`) and panics when the name is absent —
the `none` result here is turned into the fatal error by the caller. -/
def ProgramInput.get : ProgramInput → String → Option Value
  | [], _ => none
  | (k, v) :: m, s => if s = k then some v else ProgramInput.get m s

/-- `alloc_constant_size`: get or lazily create the constants-segment
cursor, write its current address to the cell `ap` designates, and advance
it by `size`. -/
def allocConstantSize (vm : Vm) (sc : Scopes) (size : Nat) :
    Except Err (Vm × Scopes) :=
  let (next, vm') : Reloc × Vm :=
    match sc.memoryExecScope with
    | some a => (a, vm)
    | none => vm.addMemorySegment
  do
    let vm'' ← vm'.insertValue vm'.ap (.rel next)
    .ok (vm'', ⟨some ⟨next.seg, next.off + size⟩⟩)

mutual

/-- Nesting depth of a `Value` tree (finite — spec §3 invariant). -/
def Value.depthOf : Value → Nat
  | .felt _ => 1
  | .bool _ => 1
  | .record fields => Value.depthOfFields fields + 1
  | .list elems => Value.depthOfElems elems + 1

/-- Greatest value depth among record fields. -/
def Value.depthOfFields : List (String × Value) → Nat
  | [] => 0
  | (_, v) :: fs => max (Value.depthOf v) (Value.depthOfFields fs)

/-- Greatest value depth among list elements. -/
def Value.depthOfElems : List Value → Nat
  | [] => 0
  | v :: vs => max (Value.depthOf v) (Value.depthOfElems vs)

end

/-- Fuel that certainly dominates the `Value` recursion depth. -/
def inputFuel (val : Value) : Nat := val.depthOf + 1

/-- `read_program_input`: look the name up (a missing name is the fatal
lookup failure), write scalars at `ap` directly, and encode records/lists
into a fresh segment whose base is written at `ap`. -/
def readProgramInput (inp : ProgramInput) (vm : Vm) (var : String) :
    Except Err Vm :=
  match inp.get var with
  | none => .error .missingInput
  | some val =>
    match val with
    | .felt _ | .bool _ => (readValueInput (inputFuel val) vm vm.ap val).map (·.1)
    | .record _ | .list _ => do
      let (segBase, vm) := vm.addMemorySegment
      let vm ← vm.insertValue vm.ap (.rel segBase)
      (readValueInput (inputFuel val) vm segBase val).map (·.1)

/-- `JuvixHintProcessor::execute`: dispatch one hint against the machine
and the run's execution scopes. -/
def execute (inp : ProgramInput) (vm : Vm) (sc : Scopes) :
    Hint → Except Err (Vm × Scopes)
  | .alloc size => allocConstantSize vm sc size
  | .input var => (readProgramInput inp vm var).map ((·, sc))
  | .randomEcPoint => (randomEcPointHint vm).map ((·, sc))

/-- A run executing a sequence of `Alloc` hints: before each hint the
surrounding program has positioned the `ap` register (first component);
the hint is then executed with the given size (second component). -/
def runAllocs : Vm → Scopes → List (Reloc × Nat) → Except Err (Vm × Scopes)
  | vm, sc, [] => .ok (vm, sc)
  | vm, sc, (ap0, size) :: rest => do
    let (vm', sc') ← allocConstantSize { vm with ap := ap0 } sc size
    runAllocs vm' sc' rest

/-! ### The hint grammar parser (hint_parser.rs)

The nom combinators used by the source are embedded as functions from the
remaining input (a list of characters) to an optional (remaining, produced)
pair; `none` is a parse failure. -/

/-- nom `is_alphabetic`: ASCII `A`–`Z`, `a`–`z`. -/
def isAlphaChar (c : Char) : Bool := ('A' ≤ c && c ≤ 'Z') || ('a' ≤ c && c ≤ 'z')

/-- ASCII digit. -/
def isDigitChar (c : Char) : Bool := '0' ≤ c && c ≤ '9'

/-- nom `is_alphanumeric`. -/
def isAlnumChar (c : Char) : Bool := isAlphaChar c || isDigitChar c

/-- nom `multispace0` character class: space, tab, line feed, carriage
return. -/
def isSpaceChar (c : Char) : Bool := c == ' ' || c == '\t' || c == '\n' || c == '\x0d'

/-- Parser result: `none` is failure, otherwise the remaining input and the
produced value. -/
def PRes (α : Type) : Type := Option (List Char × α)

/-- nom `tag`. -/
def ptag (t : List Char) (s : List Char) : PRes (List Char) :=
  if t.isPrefixOf s then some (s.drop t.length, t) else none

/-- nom `char`. -/
def pchar (c : Char) (s : List Char) : PRes Char :=
  match s with
  | [] => none
  | x :: r => if x = c then some (r, c) else none

/-- nom `alt` (two alternatives suffice for this grammar). -/
def palt {α : Type} (p q : List Char → PRes α) (s : List Char) : PRes α :=
  match p s with
  | some r => some r
  | none => q s

/-- nom `map`. -/
def pmap {α β : Type} (p : List Char → PRes α) (f : α → β) (s : List Char) : PRes β :=
  match p s with
  | some (r, v) => some (r, f v)
  | none => none

/-- nom `pair`. -/
def ppair {α β : Type} (p : List Char → PRes α) (q : List Char → PRes β)
    (s : List Char) : PRes (α × β) :=
  match p s with
  | none => none
  | some (s1, a) =>
    match q s1 with
    | none => none
    | some (s2, b) => some (s2, (a, b))

/-- nom `preceded`. -/
def ppreceded {α β : Type} (p : List Char → PRes α) (q : List Char → PRes β)
    (s : List Char) : PRes β :=
  match p s with
  | none => none
  | some (s1, _) => q s1

/-- nom `terminated`. -/
def pterminated {α β : Type} (p : List Char → PRes α) (q : List Char → PRes β)
    (s : List Char) : PRes α :=
  match p s with
  | none => none
  | some (s1, a) =>
    match q s1 with
    | none => none
    | some (s2, _) => some (s2, a)

/-- nom `delimited`. -/
def pdelimited {α β γ : Type} (p : List Char → PRes α) (q : List Char → PRes β)
    (r : List Char → PRes γ) (s : List Char) : PRes β :=
  ppreceded p (pterminated q r) s

/-- nom `alpha1`: the longest non-empty alphabetic run. -/
def alpha1 (s : List Char) : PRes (List Char) :=
  let pre := s.takeWhile isAlphaChar
  if pre.isEmpty then none else some (s.dropWhile isAlphaChar, pre)

/-- nom `alphanumeric1`. -/
def alphanumeric1 (s : List Char) : PRes (List Char) :=
  let pre := s.takeWhile isAlnumChar
  if pre.isEmpty then none else some (s.dropWhile isAlnumChar, pre)

/-- nom `multispace0` (always succeeds). -/
def multispace0 (s : List Char) : PRes (List Char) :=
  some (s.dropWhile isSpaceChar, s.takeWhile isSpaceChar)

/-- nom `many0`, fuelled (each successful inner step consumes input, so
fuel `s.length + 1` is never the limiting factor; a successful inner parse
consuming nothing triggers nom's infinite-loop protection error). -/
def pmany0Aux (p : List Char → PRes (List Char)) : Nat → List Char → PRes (List Char)
  | 0, _ => none
  | fuel + 1, s =>
    match p s with
    | none => some (s, [])
    | some (s', v) =>
      if s'.length < s.length then
        match pmany0Aux p fuel s' with
        | some (s'', vs) => some (s'', v ++ vs)
        | none => none
      else none

/-- nom `many0`. -/
def pmany0 (p : List Char → PRes (List Char)) (s : List Char) : PRes (List Char) :=
  pmany0Aux p (s.length + 1) s

/-- nom `recognize`: the slice consumed by the inner parser. -/
def precognize {α : Type} (p : List Char → PRes α) (s : List Char) : PRes (List Char) :=
  match p s with
  | none => none
  | some (s', _) => some (s', s.take (s.length - s'.length))

/-- nom `character::complete::u64`: a non-empty digit run whose value fits
in a `u64`. -/
def parse_u64 (s : List Char) : PRes Nat :=
  let ds := s.takeWhile isDigitChar
  if ds.isEmpty then none
  else
    let v := ds.foldl (fun a c => a * 10 + (c.toNat - 48)) 0
    if v < 2 ^ 64 then some (s.dropWhile isDigitChar, v) else none

/-- `parse_usize`: `parse_u64` cast to `usize` (identical on 64-bit). -/
def parse_usize (s : List Char) : PRes Nat := pmap parse_u64 (fun n => n) s

/-- `parse_identifier`: `recognize(pair(alt((alpha1, tag("_"))),
many0(alt((alphanumeric1, tag("_"))))))`, i.e. a bare identifier
`[A-Za-z_][A-Za-z0-9_]*`, converted to a string. -/
def parse_identifier (s : List Char) : PRes String :=
  pmap
    (precognize (ppair (palt alpha1 (ptag ['_']))
      (pmany0 (palt alphanumeric1 (ptag ['_'])))))
    (fun cs => String.mk cs) s

/-- `parse_input`: `Input` `(` identifier `)` with the whitespace layout of
the source. -/
def parse_input (s : List Char) : PRes Hint :=
  pmap
    (ppreceded
      (ppreceded (ptag (("Input").toList))
        (ppreceded multispace0 (ppreceded (pchar '(') multispace0)))
      (pdelimited multispace0 parse_identifier
        (ppair multispace0 (pchar ')'))))
    Hint.input s

/-- `parse_alloc`: `Alloc` `(` unsigned integer `)`. -/
def parse_alloc (s : List Char) : PRes Hint :=
  pmap
    (ppreceded
      (ppreceded (ptag (("Alloc").toList))
        (ppreceded multispace0 (pchar '(')))
      (pdelimited multispace0 parse_usize
        (ppair multispace0 (pchar ')'))))
    Hint.alloc s

/-- `parse_hint`: `all_consuming(delimited(multispace0, alt((parse_input,
parse_alloc)), multispace0))`. -/
def parse_hint (s : List Char) : PRes Hint :=
  match pdelimited multispace0 (palt parse_input parse_alloc) multispace0 s with
  | some ([], h) => some ([], h)
  | _ => none

/-- `Hint::from_str`: run the parser on the whole text; failures carry the
diagnostic message beginning with the fixed prefix. -/
def hintFromStr (s : String) : Except String Hint :=
  match parse_hint s.toList with
  | some (_, h) => .ok h
  | none => .error (("Error parsing hint ") ++ s)

/-- First character of a bare identifier as accepted by
`parse_identifier`: an ASCII letter or underscore. -/
def isIdentStartChar (c : Char) : Bool := isAlphaChar c || c == '_'

/-- Any identifier character: letter, digit or underscore. -/
def isIdentChar (c : Char) : Bool := isAlnumChar c || c == '_'

/-- The remaining input does not continue with a `p`-character. -/
def stopsAt (p : Char → Bool) : List Char → Prop
  | [] => True
  | c :: _ => p c = false

/-- `name` is a bare identifier: non-empty, starting with a letter or
underscore, continuing with letters, digits or underscores. -/
def IsIdentStr (name : String) : Prop :=
  ∃ c rest, name.toList = c :: rest ∧ isIdentStartChar c = true ∧
    ∀ x ∈ rest, isIdentChar x = true

/-! ### Program-input JSON decoding (program_input.rs) -/

/-- A JSON document node (`serde_json::Value`); a JSON number carries its
source literal (`num.as_str()`), and object key order is the source-text
order. -/
inductive Json where
  | num (lit : String)
  | str (s : String)
  | bool (b : Bool)
  | obj (fields : List (String × Json))
  | arr (elems : List Json)
  | null
deriving Repr

/-- Decode failures of `value_from_json` (`serde_json` custom errors). -/
inductive DecodeError where
  | invalidFieldElement
  | invalidBoolean
  | invalidValue
  | outOfFuel
deriving DecidableEq, Repr

/-- `Felt252::from_dec_str` (external collaborator, modelled by its
contract, spec §4.2): accepts a non-empty run of decimal digits denoting a
value representable in the field; any other literal — a sign, a decimal
point, an exponent, or an out-of-range value — fails. -/
def feltFromDecStr (s : String) : Option Nat :=
  let cs := s.toList
  if cs.isEmpty then none
  else if cs.all isDigitChar then
    let v := cs.foldl (fun a c => a * 10 + (c.toNat - 48)) 0
    if v < P then some v else none
  else none

/-- ASCII hexadecimal digit. -/
def isHexChar (c : Char) : Bool :=
  isDigitChar c || ('a' ≤ c && c ≤ 'f') || ('A' ≤ c && c ≤ 'F')

/-- Numeric value of a hexadecimal digit. -/
def hexDigitVal (c : Char) : Nat :=
  if isDigitChar c then c.toNat - 48
  else if 'a' ≤ c && c ≤ 'f' then c.toNat - 87
  else c.toNat - 55

/-- serde deserialization of a `Felt252` from a JSON string (external
collaborator, modelled by its contract, spec §4.2): a `0x`-prefixed
hexadecimal or a decimal literal, required to be representable in the
field. -/
def feltFromJsonStr (s : String) : Option Nat :=
  match s.toList with
  | '0' :: 'x' :: hs =>
    if hs.isEmpty then none
    else if hs.all isHexChar then
      let v := hs.foldl (fun a c => a * 16 + hexDigitVal c) 0
      if v < P then some v else none
    else none
  | _ => feltFromDecStr s

mutual

/-- Nesting depth of a JSON tree. -/
def Json.depthOf : Json → Nat
  | .num _ => 1
  | .str _ => 1
  | .bool _ => 1
  | .null => 1
  | .obj fields => Json.depthOfFields fields + 1
  | .arr elems => Json.depthOfElems elems + 1

/-- Greatest depth among object members. -/
def Json.depthOfFields : List (String × Json) → Nat
  | [] => 0
  | (_, j) :: fs => max (Json.depthOf j) (Json.depthOfFields fs)

/-- Greatest depth among array elements. -/
def Json.depthOfElems : List Json → Nat
  | [] => 0
  | j :: js => max (Json.depthOf j) (Json.depthOfElems js)

end

/-- `value_from_json` from program_input.rs, fuelled (the Rust recursion is
structural on the JSON tree; any `fuel ≥ Json.depthOf j` behaves
identically): numbers and numeric strings decode to `Felt` or fail with the
invalid-field-element error, booleans decode to `Bool`, objects and arrays
recurse preserving order, anything else (null) is an invalid value. -/
def value_from_json : Nat → Json → Except DecodeError Value
  | 0, _ => .error .outOfFuel
  | fuel + 1, j =>
    match j with
    | .num lit =>
      match feltFromDecStr lit with
      | some n => .ok (.felt n)
      | none => .error .invalidFieldElement
    | .str s =>
      match feltFromJsonStr s with
      | some n => .ok (.felt n)
      | none => .error .invalidFieldElement
    | .bool b => .ok (.bool b)
    | .obj fields =>
      (fields.mapM (fun kv => (value_from_json fuel kv.2).map ((kv.1, ·)))).map .record
    | .arr elems =>
      (elems.mapM (value_from_json fuel)).map .list
    | .null => .error .invalidValue

/-- A machine with empty memory, next fresh segment `1`, `ap` at the start
of segment `0` (concrete evaluation states below start from here). -/
def vmA : Vm := ⟨[], 1, ⟨0, 0⟩⟩

/-! ### Helper lemmas -/

/-- A successful write leaves the written value readable. -/
theorem insertValue_lookup_self {vm vm' : Vm} {a : Reloc} {v : MRel}
    (h : vm.insertValue a v = .ok vm') : vm'.mem.lookup a = some v := by
  unfold Vm.insertValue at h
  split at h
  · next w hl =>
    split at h
    · next hw =>
      cases h
      rw [hl, hw]
    · cases h
  · next hl =>
    cases h
    simp [Memory.lookup]

/-- A successful write preserves every value already readable. -/
theorem insertValue_lookup_mono {vm vm' : Vm} {a b : Reloc} {v w : MRel}
    (h : vm.insertValue a v = .ok vm') (hb : vm.mem.lookup b = some w) :
    vm'.mem.lookup b = some w := by
  unfold Vm.insertValue at h
  split at h
  · next u hl =>
    split at h
    · cases h
      exact hb
    · cases h
  · next hl =>
    cases h
    by_cases hba : b = a
    · rw [hba] at hb
      rw [hb] at hl
      cases hl
    · simpa [Memory.lookup, hba] using hb

/-- A successful write does not change the segment counter or `ap`. -/
theorem insertValue_frame {vm vm' : Vm} {a : Reloc} {v : MRel}
    (h : vm.insertValue a v = .ok vm') :
    vm'.nextSeg = vm.nextSeg ∧ vm'.ap = vm.ap := by
  unfold Vm.insertValue at h
  split at h
  · split at h
    · cases h
      exact ⟨rfl, rfl⟩
    · cases h
  · cases h
    exact ⟨rfl, rfl⟩

/-- Partial sums of a positive list are strictly monotone. -/
theorem take_sum_lt_take_sum :
    ∀ (l : List Nat), (∀ x ∈ l, 0 < x) → ∀ i j, i < j → j ≤ l.length →
      ((l.take i).sum < (l.take j).sum)
  | [], _, i, j, hij, hj => by simp at hj; omega
  | x :: xs, hpos, 0, j, hij, hj => by
    cases j with
    | zero => omega
    | succ j' =>
      simp only [List.take_zero, List.sum_nil, List.take_succ_cons, List.sum_cons]
      have hx : 0 < x := hpos x (by simp)
      omega
  | x :: xs, hpos, i + 1, j, hij, hj => by
    cases j with
    | zero => omega
    | succ j' =>
      simp only [List.take_succ_cons, List.sum_cons]
      have := take_sum_lt_take_sum xs (fun y hy => hpos y (by simp [hy]))
        i j' (by omega) (by simpa using hj)
      omega

/-! ### Claim theorems -/

/-- C1. The record encoder writes header tag 0 at `A` and references field
`i` from `A + 1 + i`, but the source initialises the free-cell cursor at
`A + fields.len()` — not `A + n + 1` as claimed — so the first nested
field's body is placed on top of the last reference cell of the header
block. Concretely: (i) for `Record({"x": List([])})` at `A = (0,0)` the
body write at `A + 1` collides with the pointer just written there and
encoding fails with the inconsistent-memory error; (ii) for
`Record({"a": List([]), "b": Felt(0)})` the encoding survives by value
coincidence and the pointer stored at `A + 1` is `A + 2 = A + n`, one cell
short of the claimed `A + n + 1`. -/
theorem c1_record_body_off_by_one :
    readValueInput 4 vmA ⟨0, 0⟩ (.record [(("x"), .list [])]) =
      .error .inconsistentMemory ∧
    readValueInput 4 vmA ⟨0, 0⟩ (.record [(("a"), .list []), (("b"), .felt 0)]) =
      .ok (⟨[(⟨0, 2⟩, .int 0), (⟨0, 1⟩, .rel ⟨0, 2⟩), (⟨0, 0⟩, .int 0)], 1, ⟨0, 0⟩⟩, 3) :=
  ⟨rfl, rfl⟩

/-- C2. The point sampled by `random_ec_point` does not depend on the
machine state at the call: the source constructs `ark_std::test_rng()` —
a generator with a fixed compile-time seed — inside every call, so any two
calls, in one run or in different runs, produce the identical point. -/
theorem c2_sample_state_independent :
    ∀ vm₁ vm₂ : Vm, randomEcPointPairOf vm₁ = randomEcPointPairOf vm₂ :=
  fun _ _ => rfl

/-- C4 counterexample. Encoding `Record({"a": Felt(5), "b": Bool(true)})`
at `A = (0,0)`: cell `A + 2` holds `0`, not `1` as the claim states —
`read_bool_input` writes `if v { 0 } else { 1 }`, so `Bool(true)` encodes
as `0`. -/
theorem c4_bool_true_encodes_zero :
    (readValueInput 3 vmA ⟨0, 0⟩
        (.record [(("a"), .felt 5), (("b"), .bool true)])).toOption.map
      (fun p => p.1.mem.lookup ⟨0, 2⟩) = some (some (.int 0)) ∧
    (readValueInput 3 vmA ⟨0, 0⟩
        (.record [(("a"), .felt 5), (("b"), .bool true)])).toOption.map
      (fun p => p.1.mem.lookup ⟨0, 2⟩) ≠ some (some (.int 1)) :=
  ⟨rfl, by decide⟩

/-- C4 (amended). Encoding `Record({"a": Felt(5), "b": Bool(true)})` at any
base address `A` writes exactly the 3-cell header block `A ↦ 0`,
`A + 1 ↦ 5` inline, `A + 2 ↦ 0` inline (`Bool(true)` encodes as `0` under
the inverted mapping), and requests no extra memory segment: the machine
comes back with exactly those three cells, the segment counter and `ap`
untouched. -/
theorem c4_record_encoding_shape (seg off ns : Nat) (ap0 : Reloc) :
    readValueInput 3 ⟨[], ns, ap0⟩ ⟨seg, off⟩
        (.record [(("a"), .felt 5), (("b"), .bool true)]) =
      .ok (⟨[(⟨seg, off + 2⟩, .int 0), (⟨seg, off + 1⟩, .int 5),
             (⟨seg, off⟩, .int 0)], ns, ap0⟩, 2) := by
  simp [readValueInput, Vm.insertValue, Memory.lookup, Reloc.addOff, Reloc.subR,
    Bind.bind, Except.bind, Pure.pure, Except.pure, Nat.add_left_cancel_iff,
    add_right_eq_self, Nat.add_sub_cancel_left]

/-- C5. (i) Encoding `List([Felt(1), Felt(2)])` at `A = (0,0)` writes
exactly the claimed 7 cells — cons(1, 1, A+3), cons(1, 2, A+6), nil 0 at
A+6 — and reports 7 cells consumed; (ii) the general `3k + 1` plus
body-sizes rule is broken by the record off-by-one: for
`List([Record({"x": Felt(1)})])` the record body at `A+3` reports 1 cell
though it wrote 2, so the nil write lands on the body's last cell and
encoding fails with the inconsistent-memory error. -/
theorem c5_list_encoding_shape :
    readValueInput 4 vmA ⟨0, 0⟩ (.list [.felt 1, .felt 2]) =
      .ok (⟨[(⟨0, 6⟩, .int 0), (⟨0, 5⟩, .rel ⟨0, 6⟩), (⟨0, 4⟩, .int 2),
             (⟨0, 3⟩, .int 1), (⟨0, 2⟩, .rel ⟨0, 3⟩), (⟨0, 1⟩, .int 1),
             (⟨0, 0⟩, .int 1)], 1, ⟨0, 0⟩⟩, 7) ∧
    readValueInput 4 vmA ⟨0, 0⟩ (.list [.record [(("x"), .felt 1)]]) =
      .error .inconsistentMemory :=
  ⟨rfl, rfl⟩

/-- Running a sequence of `Alloc` hints from a fresh scope with the cursor
already established at `(b, o)`: the cursor ends at `o` plus the sum of the
sizes, the segment counter is untouched, earlier memory survives, and the
`i`-th output cell holds the cursor address `o` plus the partial sum of the
earlier sizes. -/
theorem runAllocs_some :
    ∀ (steps : List (Reloc × Nat)) (vm : Vm) (b o : Nat) (vm' : Vm) (sc' : Scopes),
      runAllocs vm ⟨some ⟨b, o⟩⟩ steps = .ok (vm', sc') →
      sc' = ⟨some ⟨b, o + (steps.map Prod.snd).sum⟩⟩ ∧
      vm'.nextSeg = vm.nextSeg ∧
      (∀ a w, vm.mem.lookup a = some w → vm'.mem.lookup a = some w) ∧
      (∀ i (h : i < steps.length),
        vm'.mem.lookup (steps.get ⟨i, h⟩).1 =
          some (.rel ⟨b, o + ((steps.map Prod.snd).take i).sum⟩))
  | [], vm, b, o, vm', sc', h => by
    cases h
    refine ⟨by simp, rfl, fun a w hw => hw, fun i hi => by simp at hi⟩
  | (ap0, sz) :: rest, vm, b, o, vm', sc', h => by
    unfold runAllocs allocConstantSize at h
    simp only [Bind.bind, Except.bind] at h
    cases hI : Vm.insertValue { vm with ap := ap0 } ap0 (.rel ⟨b, o⟩) with
    | error e =>
      rw [hI] at h
      cases h
    | ok vm₁ =>
      rw [hI] at h
      have ih := runAllocs_some rest vm₁ b (o + sz) vm' sc' h
      obtain ⟨hsc, hseg, hmono, hget⟩ := ih
      have hframe := insertValue_frame hI
      refine ⟨?_, ?_, ?_, ?_⟩
      · rw [hsc]
        simp [Nat.add_assoc]
      · rw [hseg, hframe.1]
      · intro a w hw
        exact hmono a w (insertValue_lookup_mono hI hw)
      · intro i hi
        cases i with
        | zero =>
          simp only [List.get]
          have h0 : vm₁.mem.lookup ap0 = some (.rel ⟨b, o⟩) :=
            insertValue_lookup_self hI
          have := hmono ap0 _ h0
          simpa using this
        | succ i' =>
          have hi' : i' < rest.length := by simpa using hi
          have := hget i' hi'
          simp only [List.get] at this ⊢
          rw [this]
          congr 2
          simp [Nat.add_assoc]

/-- C6 counterexample. The run `Alloc(0); Alloc(1)` succeeds and returns
the same constants-segment address twice — a size `0` is accepted by the
grammar and by `alloc_constant_size`, so the returned addresses are not
strictly increasing as claimed. -/
theorem c6_zero_size_not_strictly_increasing :
    (runAllocs vmA ⟨none⟩ [(⟨0, 0⟩, 0), (⟨0, 1⟩, 1)]).toOption.map
      (fun p => (p.1.mem.lookup ⟨0, 0⟩, p.1.mem.lookup ⟨0, 1⟩)) =
      some (some (.rel ⟨1, 0⟩), some (.rel ⟨1, 0⟩)) := rfl

/-- C6 (amended). For any successful run of `Alloc(s_1), …, Alloc(s_k)`
hints starting with no allocation scope: the `i`-th output cell receives
the base of the constants segment (created lazily from the run's next
fresh segment on the first `Alloc`) plus `s_1 + … + s_i₋₁`; the cursor is
never reset — it ends at the base plus the sum of all sizes — and the
returned addresses are strictly increasing provided every size is
positive (they are only non-decreasing in general, see the
counterexample). -/
theorem c6_alloc_monotonicity :
    ∀ (steps : List (Reloc × Nat)) (vm0 vm' : Vm) (sc' : Scopes),
      runAllocs vm0 ⟨none⟩ steps = .ok (vm', sc') →
      (∀ i (h : i < steps.length),
        vm'.mem.lookup (steps.get ⟨i, h⟩).1 =
          some (.rel ⟨vm0.nextSeg, ((steps.map Prod.snd).take i).sum⟩)) ∧
      (steps ≠ [] → sc' = ⟨some ⟨vm0.nextSeg, (steps.map Prod.snd).sum⟩⟩) ∧
      ((∀ p ∈ steps, 0 < p.2) → ∀ i j, i < j → j ≤ steps.length →
        ((steps.map Prod.snd).take i).sum < ((steps.map Prod.snd).take j).sum)
  | [], vm0, vm', sc', h => by
    refine ⟨fun i hi => by simp at hi, fun hne => absurd rfl hne,
      fun hpos i j hij hj => ?_⟩
    simp at hj
    omega
  | (ap0, sz) :: rest, vm0, vm', sc', h => by
    unfold runAllocs allocConstantSize at h
    simp only [Bind.bind, Except.bind, Vm.addMemorySegment] at h
    cases hI : Vm.insertValue { vm0 with nextSeg := vm0.nextSeg + 1, ap := ap0 } ap0
        (.rel ⟨vm0.nextSeg, 0⟩) with
    | error e =>
      rw [hI] at h
      cases h
    | ok vm₁ =>
      rw [hI] at h
      obtain ⟨hsc, hseg, hmono, hget⟩ :=
        runAllocs_some rest vm₁ vm0.nextSeg (0 + sz) vm' sc' h
      refine ⟨?_, ?_, ?_⟩
      · intro i hi
        cases i with
        | zero =>
          have h0 : vm₁.mem.lookup ap0 = some (.rel ⟨vm0.nextSeg, 0⟩) :=
            insertValue_lookup_self hI
          have := hmono ap0 _ h0
          simpa using this
        | succ i' =>
          have hi' : i' < rest.length := by simpa using hi
          have := hget i' hi'
          simp only [List.get] at this ⊢
          rw [this]
          congr 2
          simp
      · intro _
        rw [hsc]
        simp [Nat.add_assoc]
      · intro hpos i j hij hj
        refine take_sum_lt_take_sum _ ?_ i j hij (by simpa using hj)
        intro y hy
        obtain ⟨p, hp, rfl⟩ := List.mem_map.mp hy
        exact hpos p hp

/-- C6 witness: the run `Alloc(1); Alloc(2)` from a fresh machine — the
output cells receive the strictly increasing addresses `(1, 0)` and
`(1, 1)` of the lazily created constants segment. -/
theorem c6_alloc_monotonicity_witness :
    (⟨[(⟨0, 1⟩, .rel ⟨1, 1⟩), (⟨0, 0⟩, .rel ⟨1, 0⟩)], 2, ⟨0, 1⟩⟩ : Vm).mem.lookup ⟨0, 0⟩
      = some (.rel ⟨1, 0⟩) ∧
    (⟨[(⟨0, 1⟩, .rel ⟨1, 1⟩), (⟨0, 0⟩, .rel ⟨1, 0⟩)], 2, ⟨0, 1⟩⟩ : Vm).mem.lookup ⟨0, 1⟩
      = some (.rel ⟨1, 1⟩) ∧
    ((([(⟨0, 0⟩, 1), (⟨0, 1⟩, 2)] : List (Reloc × Nat)).map Prod.snd).take 0).sum <
      ((([(⟨0, 0⟩, 1), (⟨0, 1⟩, 2)] : List (Reloc × Nat)).map Prod.snd).take 1).sum := by
  have h := c6_alloc_monotonicity [(⟨0, 0⟩, 1), (⟨0, 1⟩, 2)] vmA
    ⟨[(⟨0, 1⟩, .rel ⟨1, 1⟩), (⟨0, 0⟩, .rel ⟨1, 0⟩)], 2, ⟨0, 1⟩⟩ ⟨some ⟨1, 3⟩⟩ rfl
  exact ⟨h.1 0 (by decide), h.1 1 (by decide),
    h.2.2 (by decide) 0 1 (by decide) (by decide)⟩

/-- The `(x, r)` pair the acceptance loop breaks with satisfies
`r = x³ + x + β`. -/
theorem sampleXLoop_some :
    ∀ (fuel i : Nat) (draw : Nat → Nat) (x r : Nat),
      sampleXLoop draw i fuel = some (x, r) → r = curveRhs x
  | 0, _, _, _, _, h => by cases h
  | fuel + 1, i, draw, x, r, h => by
    simp only [sampleXLoop] at h
    split at h
    · cases h
      rfl
    · exact sampleXLoop_some fuel (i + 1) draw x r h

/-- A value returned by the checked square root squares to the input. -/
theorem checkedSqrt_some {c r y : Nat} (h : checkedSqrt c r = some y) :
    y * y % P = r % P := by
  unfold checkedSqrt at h
  split at h
  · next hc =>
    cases h
    exact hc
  · cases h

/-- A value returned by the modelled `Fq::sqrt` squares to the input. -/
theorem fqSqrt_some {r y : Nat} (h : fqSqrt r = some y) : y * y % P = r % P :=
  checkedSqrt_some h

/-- The source's evaluation order of `x³ + x + β` agrees with the
mathematical right-hand side modulo `P`. -/
theorem curveRhs_eq_pow (x : Nat) : curveRhs x = (x ^ 3 + x + get_beta) % P := by
  have m1 : x * x % P ≡ x * x [MOD P] := Nat.mod_modEq _ _
  have m3 : (x * x % P) * x % P ≡ x * x * x [MOD P] :=
    (Nat.mod_modEq _ _).trans (m1.mul_right x)
  have m4 : (x * x % P) * x % P + x + get_beta ≡ x * x * x + x + get_beta [MOD P] :=
    (m3.add_right x).add_right get_beta
  calc curveRhs x = ((x * x % P) * x % P + x + get_beta) % P := rfl
    _ = (x * x * x + x + get_beta) % P := m4
    _ = (x ^ 3 + x + get_beta) % P := by ring_nf

/-- C8. Every point `(x, y)` the EC point sampler produces satisfies the
curve equation `y² = x³ + x + β` in the field, whatever the rng draws and
however many trials the acceptance loop takes. -/
theorem c8_sampler_point_on_curve (draw : Nat → Nat) (fuel x y : Nat)
    (h : randomEcPointSample draw fuel = some (x, y)) :
    y * y % P = (x ^ 3 + x + get_beta) % P := by
  unfold randomEcPointSample at h
  split at h
  · cases h
  · next x' r hl =>
    split at h
    · cases h
    · next y' hs =>
      cases h
      have hr : r = curveRhs x := sampleXLoop_some fuel 0 draw x r hl
      have h2 : y * y % P = r % P := fqSqrt_some hs
      rw [hr, curveRhs_eq_pow] at h2
      rw [h2]
      exact Nat.mod_mod_of_dvd _ dvd_rfl

/-- C8 witness: a draw stream returning `x = 1`, for which
`1³ + 1 + β` is a quadratic residue: the sampler produces the point on the
first trial and its coordinates satisfy the curve equation. -/
theorem c8_sampler_point_on_curve_witness :
    randomEcPointSample (fun _ => 1) 1 =
      some (1, 1130673244253924969006665885121925533155264548256591442770131812330730973800) ∧
    1130673244253924969006665885121925533155264548256591442770131812330730973800 *
      1130673244253924969006665885121925533155264548256591442770131812330730973800 % P =
      (1 ^ 3 + 1 + get_beta) % P :=
  have h : randomEcPointSample (fun _ => 1) 1 =
      some (1, 1130673244253924969006665885121925533155264548256591442770131812330730973800) := rfl
  ⟨h, c8_sampler_point_on_curve (fun _ => 1) 1 1
    1130673244253924969006665885121925533155264548256591442770131812330730973800 h⟩

/-- C7. Executing an `Input` hint whose name is absent from the
program-input table fails with the fatal lookup error (the Rust `HashMap`
index panic) and produces no machine state at all — no default is ever
written. -/
theorem c7_missing_input_fails (inp : ProgramInput) (vm : Vm) (sc : Scopes)
    (var : String) (h : inp.get var = none) :
    execute inp vm sc (.input var) = .error .missingInput := by
  simp only [execute, readProgramInput, h]
  rfl

/-- C7 witness: looking up `"y"` in the table `{"x" ↦ Felt(1)}`. -/
theorem c7_missing_input_fails_witness :
    execute [(("x"), .felt 1)] vmA ⟨none⟩ (.input ("y")) = .error .missingInput :=
  c7_missing_input_fails [(("x"), .felt 1)] vmA ⟨none⟩ ("y") rfl

/-- C9. A JSON number whose literal `Felt252::from_dec_str` cannot
represent in the field, and a JSON string the serde field-element
deserialiser rejects, decode to the invalid-field-element error — never to
a `Felt` value. -/
theorem c9_invalid_field_element :
    (∀ (fuel : Nat) (lit : String), feltFromDecStr lit = none →
      value_from_json (fuel + 1) (.num lit) = .error .invalidFieldElement) ∧
    (∀ (fuel : Nat) (s : String), feltFromJsonStr s = none →
      value_from_json (fuel + 1) (.str s) = .error .invalidFieldElement) := by
  constructor
  · intro fuel lit h
    simp only [value_from_json, h]
  · intro fuel s h
    simp only [value_from_json, h]

/-- C9 witness: the negative literal `-5` (number path) and the modulus
itself written in decimal (string path, out of range) both fail. -/
theorem c9_invalid_field_element_witness :
    value_from_json 1 (.num ("-5")) = .error .invalidFieldElement ∧
    value_from_json 1
      (.str ("3618502788666131213697322783095070105623107215331596699973092056135872020481")) =
      .error .invalidFieldElement :=
  ⟨c9_invalid_field_element.1 0 ("-5") rfl,
   c9_invalid_field_element.2 0
     ("3618502788666131213697322783095070105623107215331596699973092056135872020481") rfl⟩

/-- A successful `parse_input` always produces an `Input` hint. -/
theorem parse_input_shape {s r : List Char} {h : Hint}
    (hm : parse_input s = some (r, h)) : ∃ n, h = .input n := by
  unfold parse_input pmap at hm
  split at hm
  · next val =>
    cases hm
    exact ⟨_, rfl⟩
  · cases hm

/-- A successful `parse_alloc` always produces an `Alloc` hint. -/
theorem parse_alloc_shape {s r : List Char} {h : Hint}
    (hm : parse_alloc s = some (r, h)) : ∃ k, h = .alloc k := by
  unfold parse_alloc pmap at hm
  split at hm
  · next val =>
    cases hm
    exact ⟨_, rfl⟩
  · cases hm

/-- C10. Every successful hint parse yields `Input(name)` or `Alloc(size)`
— no hint source text parses to `RandomEcPoint` — even though the
execution engine's dispatch does handle that variant (second conjunct), so
the operation is unreachable through the compile interface. -/
theorem c10_random_ec_point_unparseable :
    (∀ (s rest : List Char) (h : Hint), parse_hint s = some (rest, h) →
      (∃ n, h = .input n) ∨ (∃ k, h = .alloc k)) ∧
    (∀ (inp : ProgramInput) (vm : Vm) (sc : Scopes),
      execute inp vm sc .randomEcPoint = (randomEcPointHint vm).map ((·, sc))) := by
  refine ⟨?_, fun _ _ _ => rfl⟩
  intro s rest h hm
  unfold parse_hint at hm
  split at hm
  · next h' hd =>
    cases hm
    unfold pdelimited ppreceded pterminated at hd
    split at hd
    · cases hd
    · next s1 a hs1 =>
      split at hd
      · cases hd
      · next s2 v hq =>
        split at hd
        · cases hd
        · next s3 b hr =>
          cases hd
          unfold palt at hq
          split at hq
          · next res hres =>
            cases hq
            exact Or.inl (parse_input_shape hres)
          · exact Or.inr (parse_alloc_shape hq)
  · cases hm

/-- C10 witness: `Alloc(1)` parses, and its parse is an `Alloc`. -/
theorem c10_random_ec_point_unparseable_witness :
    parse_hint (("Alloc(1)").toList) = some ([], .alloc 1) ∧
    ((∃ n, (Hint.alloc 1) = .input n) ∨ (∃ k, (Hint.alloc 1) = .alloc k)) :=
  have h : parse_hint (("Alloc(1)").toList) = some ([], .alloc 1) := rfl
  ⟨h, c10_random_ec_point_unparseable.1 _ _ _ h⟩


/-! ### The hint grammar accepts exactly bare identifiers in `Input` -/

/-- `takeWhile`/`dropWhile` pass over a prefix unhindered when the suffix
does not continue the run. -/
theorem takeWhile_append_of_stops (p : Char → Bool) :
    ∀ (xs ys : List Char), stopsAt p ys →
      (xs ++ ys).takeWhile p = xs.takeWhile p ∧
      (xs ++ ys).dropWhile p = xs.dropWhile p ++ ys
  | [], ys, hstop => by
    cases ys with
    | nil => simp
    | cons y t =>
      simp only [List.nil_append, List.takeWhile, List.dropWhile]
      unfold stopsAt at hstop
      rw [hstop]
      simp
  | x :: xs, ys, hstop => by
    simp only [List.cons_append, List.takeWhile, List.dropWhile]
    cases hx : p x with
    | true =>
      have ih := takeWhile_append_of_stops p xs ys hstop
      simp [ih.1, ih.2]
    | false => simp

/-- An identifier head character is not whitespace. -/
theorem identStart_not_space {c : Char} (h : isIdentStartChar c = true) :
    isSpaceChar c = false := by
  by_contra hs
  have hs' : isSpaceChar c = true := by
    cases hcs : isSpaceChar c
    · exact absurd hcs hs
    · rfl
  unfold isSpaceChar at hs'
  simp only [Bool.or_eq_true, beq_iff_eq] at hs'
  rcases hs' with ((rfl | rfl) | rfl) | rfl <;> simp [isIdentStartChar, isAlphaChar] at h

/-- A non-identifier character is not alphanumeric. -/
theorem not_identChar_not_alnum {c : Char} (h : isIdentChar c = false) :
    isAlnumChar c = false := by
  unfold isIdentChar at h
  simp only [Bool.or_eq_false_iff] at h
  exact h.1

/-- A non-identifier character is not alphabetic. -/
theorem not_identChar_not_alpha {c : Char} (h : isIdentChar c = false) :
    isAlphaChar c = false := by
  have := not_identChar_not_alnum h
  unfold isAlnumChar at this
  simp only [Bool.or_eq_false_iff] at this
  exact this.1

/-- Input that stops an identifier also stops an alphanumeric run. -/
theorem stopsAt_alnum_of_ident {ys : List Char} (h : stopsAt isIdentChar ys) :
    stopsAt isAlnumChar ys := by
  cases ys with
  | nil => trivial
  | cons y t => exact not_identChar_not_alnum h

/-- Input that stops an identifier also stops an alphabetic run. -/
theorem stopsAt_alpha_of_ident {ys : List Char} (h : stopsAt isIdentChar ys) :
    stopsAt isAlphaChar ys := by
  cases ys with
  | nil => trivial
  | cons y t => exact not_identChar_not_alpha h

/-- The identifier-tail parser fails where no identifier character
follows. -/
theorem identTail_stops {ys : List Char} (h : stopsAt isIdentChar ys) :
    palt alphanumeric1 (ptag ['_']) ys = none := by
  cases ys with
  | nil => rfl
  | cons y t =>
    unfold stopsAt at h
    have halnum : isAlnumChar y = false := not_identChar_not_alnum h
    have hne : ¬('_' = y) := by
      intro he
      rw [← he] at h
      simp [isIdentChar] at h
    have hus : (y == '_') = false := by
      cases hu : y == '_'
      · rfl
      · rw [beq_iff_eq] at hu
        exact absurd hu.symm hne
    unfold palt alphanumeric1 ptag
    simp [List.takeWhile, halnum, List.isPrefixOf, hus, hne]

/-- The fuelled `many0` over the identifier-tail parser consumes exactly
the identifier characters in front of a stopping suffix. -/
theorem pmany0Aux_ident :
    ∀ (fuel : Nat) (zs ys : List Char), zs.length < fuel →
      (∀ x ∈ zs, isIdentChar x = true) → stopsAt isIdentChar ys →
      ∃ v, pmany0Aux (palt alphanumeric1 (ptag ['_'])) fuel (zs ++ ys) = some (ys, v)
  | 0, zs, ys, hlen, _, _ => by omega
  | fuel + 1, [], ys, hlen, hall, hstop => by
    refine ⟨[], ?_⟩
    simp only [List.nil_append, pmany0Aux, identTail_stops hstop]
  | fuel + 1, z :: zs', ys, hlen, hall, hstop => by
    have hz : isIdentChar z = true := hall z (by simp)
    cases ha : isAlnumChar z with
    | true =>
      -- alphanumeric1 consumes the maximal alphanumeric run
      have htw := takeWhile_append_of_stops isAlnumChar zs' ys
        (stopsAt_alnum_of_ident hstop)
      have hstep : palt alphanumeric1 (ptag ['_']) ((z :: zs') ++ ys) =
          some (zs'.dropWhile isAlnumChar ++ ys, z :: zs'.takeWhile isAlnumChar) := by
        unfold palt alphanumeric1
        simp only [List.cons_append, List.takeWhile, List.dropWhile, ha, htw.1, htw.2]
        simp
        rw [htw.1, htw.2]
      have hsub : (zs'.dropWhile isAlnumChar).Sublist zs' := List.dropWhile_sublist _
      have hlen2 : (zs'.dropWhile isAlnumChar).length ≤ zs'.length := hsub.length_le
      have ih := pmany0Aux_ident fuel (zs'.dropWhile isAlnumChar) ys
        (by simp at hlen; omega)
        (fun x hx => hall x (by simp [hsub.subset hx]))
        hstop
      obtain ⟨v, hv⟩ := ih
      refine ⟨(z :: zs'.takeWhile isAlnumChar) ++ v, ?_⟩
      simp only [pmany0Aux, hstep, hv]
      rw [if_pos (by simp only [List.length_append, List.length_cons]; omega)]
    | false =>
      -- the underscore branch of the alternative
      have hz9 : z = '_' := by
        unfold isIdentChar at hz
        simp only [ha, Bool.false_or, beq_iff_eq] at hz
        exact hz
      subst hz9
      have hstep : palt alphanumeric1 (ptag ['_']) (('_' :: zs') ++ ys) =
          some (zs' ++ ys, ['_']) := by
        unfold palt alphanumeric1 ptag
        simp [List.takeWhile, ha, List.isPrefixOf]
      have ih := pmany0Aux_ident fuel zs' ys
        (by simp at hlen; omega)
        (fun x hx => hall x (by simp [hx]))
        hstop
      obtain ⟨v, hv⟩ := ih
      refine ⟨['_'] ++ v, ?_⟩
      simp only [pmany0Aux, hstep, hv]
      rw [if_pos (by simp only [List.length_append, List.length_cons]; omega)]

/-- `parse_identifier` consumes exactly a bare identifier placed in front
of a suffix that does not continue it, and produces that identifier. -/
theorem parse_identifier_complete (c : Char) (rest ys : List Char)
    (hc : isIdentStartChar c = true)
    (hrest : ∀ x ∈ rest, isIdentChar x = true)
    (hstop : stopsAt isIdentChar ys) :
    parse_identifier ((c :: rest) ++ ys) = some (ys, String.mk (c :: rest)) := by
  have hlen_eq : ((c :: rest) ++ ys).length - ys.length = (c :: rest).length := by
    simp only [List.length_append, List.length_cons]
    omega
  have hpair : ∃ w, ppair (palt alpha1 (ptag ['_']))
      (pmany0 (palt alphanumeric1 (ptag ['_']))) ((c :: rest) ++ ys) = some (ys, w) := by
    cases ha : isAlphaChar c with
    | true =>
      have htw := takeWhile_append_of_stops isAlphaChar rest ys
        (stopsAt_alpha_of_ident hstop)
      have hfirst : palt alpha1 (ptag ['_']) ((c :: rest) ++ ys) =
          some (rest.dropWhile isAlphaChar ++ ys, c :: rest.takeWhile isAlphaChar) := by
        unfold palt alpha1
        simp only [List.cons_append, List.takeWhile, List.dropWhile, ha, htw.1, htw.2]
        simp
        rw [htw.1, htw.2]
      have hsub : (rest.dropWhile isAlphaChar).Sublist rest := List.dropWhile_sublist _
      obtain ⟨v, hv⟩ := pmany0Aux_ident
        ((rest.dropWhile isAlphaChar ++ ys).length + 1)
        (rest.dropWhile isAlphaChar) ys
        (by simp [List.length_append]; omega)
        (fun x hx => hrest x (hsub.subset hx))
        hstop
      refine ⟨(c :: rest.takeWhile isAlphaChar, v), ?_⟩
      simp only [ppair, pmany0, hfirst, hv]
    | false =>
      have hc9 : c = '_' := by
        unfold isIdentStartChar at hc
        simp only [ha, Bool.false_or, beq_iff_eq] at hc
        exact hc
      subst hc9
      have hfirst : palt alpha1 (ptag ['_']) (('_' :: rest) ++ ys) =
          some (rest ++ ys, ['_']) := by
        unfold palt alpha1 ptag
        simp [List.takeWhile, ha, List.isPrefixOf]
      obtain ⟨v, hv⟩ := pmany0Aux_ident ((rest ++ ys).length + 1) rest ys
        (by simp [List.length_append]; omega) hrest hstop
      refine ⟨(['_'], v), ?_⟩
      simp only [ppair, pmany0, hfirst, hv]
  obtain ⟨w, hw⟩ := hpair
  have htake : ((c :: rest) ++ ys).take (c :: rest).length = c :: rest :=
    List.take_left _ _
  simp only [parse_identifier, pmap, precognize, hw, hlen_eq]
  rw [htake]

/-- nom `preceded` steps through its first parser. -/
theorem ppreceded_eq {α β : Type} {p : List Char → PRes α} {q : List Char → PRes β}
    {s s1 : List Char} {a : α} (hp : p s = some (s1, a)) :
    ppreceded p q s = q s1 := by
  unfold ppreceded
  rw [hp]

/-- nom `terminated` combines its two parsers' successes. -/
theorem pterminated_eq {α β : Type} {p : List Char → PRes α} {q : List Char → PRes β}
    {s s1 s2 : List Char} {a : α} {b : β}
    (hp : p s = some (s1, a)) (hq : q s1 = some (s2, b)) :
    pterminated p q s = some (s2, a) := by
  unfold pterminated
  simp only [hp, hq]

/-- nom `map` transforms a success. -/
theorem pmap_eq {α β : Type} {p : List Char → PRes α} {f : α → β}
    {s s1 : List Char} {a : α} (hp : p s = some (s1, a)) :
    pmap p f s = some (s1, f a) := by
  unfold pmap
  rw [hp]

/-- nom `alt` returns its first alternative's success. -/
theorem palt_eq_first {α : Type} {p q : List Char → PRes α}
    {s : List Char} {r : List Char × α} (hp : p s = some r) :
    palt p q s = some r := by
  unfold palt
  rw [hp]

/-- `multispace0` consumes nothing when no whitespace follows. -/
theorem multispace0_no_space {s : List Char} (h : stopsAt isSpaceChar s) :
    multispace0 s = some (s, []) := by
  cases s with
  | nil => rfl
  | cons a t =>
    have ha : isSpaceChar a = false := h
    unfold multispace0
    simp [List.takeWhile, List.dropWhile, ha]

/-- `parse_input` accepts `Input(` identifier `)` and yields the `Input`
hint carrying the identifier. -/
theorem parse_input_complete (c : Char) (rest : List Char)
    (hc : isIdentStartChar c = true)
    (hrest : ∀ x ∈ rest, isIdentChar x = true) :
    parse_input ('I' :: 'n' :: 'p' :: 'u' :: 't' :: '(' :: ((c :: rest) ++ [')'])) =
      some ([], .input (String.mk (c :: rest))) := by
  have hsp : isSpaceChar c = false :=
    identStart_not_space hc
  have h1 : ptag (("Input").toList)
      ('I' :: 'n' :: 'p' :: 'u' :: 't' :: '(' :: ((c :: rest) ++ [')'])) =
      some ('(' :: ((c :: rest) ++ [')']), ("Input").toList) := rfl
  have h2 : multispace0 ('(' :: ((c :: rest) ++ [')'])) =
      some ('(' :: ((c :: rest) ++ [')']), []) := rfl
  have h3 : pchar '(' ('(' :: ((c :: rest) ++ [')'])) =
      some ((c :: rest) ++ [')'], '(') := rfl
  have h4 : multispace0 ((c :: rest) ++ [')']) =
      some ((c :: rest) ++ [')'], []) :=
    multispace0_no_space hsp
  have hident : parse_identifier ((c :: rest) ++ [')']) =
      some ([')'], String.mk (c :: rest)) :=
    parse_identifier_complete c rest [')'] hc hrest
      (show isIdentChar ')' = false by decide)
  have h5 : ppair multispace0 (pchar ')') [')'] = some ([], ([], ')')) := rfl
  have hA : ppreceded (ptag (("Input").toList))
      (ppreceded multispace0 (ppreceded (pchar '(') multispace0))
      ('I' :: 'n' :: 'p' :: 'u' :: 't' :: '(' :: ((c :: rest) ++ [')'])) =
      some ((c :: rest) ++ [')'], []) := by
    rw [ppreceded_eq h1, ppreceded_eq h2, ppreceded_eq h3]
    exact h4
  have hB : pdelimited multispace0 parse_identifier (ppair multispace0 (pchar ')'))
      ((c :: rest) ++ [')']) = some ([], String.mk (c :: rest)) := by
    unfold pdelimited
    rw [ppreceded_eq h4]
    exact pterminated_eq hident h5
  have hAB : ppreceded (ppreceded (ptag (("Input").toList))
        (ppreceded multispace0 (ppreceded (pchar '(') multispace0)))
      (pdelimited multispace0 parse_identifier (ppair multispace0 (pchar ')')))
      ('I' :: 'n' :: 'p' :: 'u' :: 't' :: '(' :: ((c :: rest) ++ [')'])) =
      some ([], String.mk (c :: rest)) := by
    rw [ppreceded_eq hA]
    exact hB
  unfold parse_input
  exact pmap_eq hAB

/-- C3 counterexample. The hint text `Input("a")` — the simplest quoted
string — is rejected by the parser: `parse_identifier` accepts only bare
identifiers, and a double quote cannot start one. -/
theorem c3_quoted_string_rejected :
    parse_hint (("Input(\"a\")").toList) = none := rfl

/-- C3 (amended). The parser's `Input` construct takes a bare identifier
(`[A-Za-z_][A-Za-z0-9_]*`), not a quoted string: parsing succeeds on
`Input(` name `)` for every identifier `name`, yielding `Input` with that
name unchanged (no escape processing exists). -/
theorem c3_input_bare_identifier (name : String) (h : IsIdentStr name) :
    parse_hint ((("Input(") ++ name ++ (")")).toList) = some ([], .input name) := by
  obtain ⟨c, rest, hname, hc, hrest⟩ := h
  have hshape : ((("Input(") ++ name ++ (")")).toList) =
      'I' :: 'n' :: 'p' :: 'u' :: 't' :: '(' :: ((name.toList) ++ [')']) := rfl
  rw [hshape, hname]
  have hin : parse_input ('I' :: 'n' :: 'p' :: 'u' :: 't' :: '(' :: ((c :: rest) ++ [')'])) =
      some ([], .input (String.mk (c :: rest))) :=
    parse_input_complete c rest hc hrest
  have h0 : multispace0 ('I' :: 'n' :: 'p' :: 'u' :: 't' :: '(' :: ((c :: rest) ++ [')'])) =
      some ('I' :: 'n' :: 'p' :: 'u' :: 't' :: '(' :: ((c :: rest) ++ [')']), []) := rfl
  have halt : palt parse_input parse_alloc
      ('I' :: 'n' :: 'p' :: 'u' :: 't' :: '(' :: ((c :: rest) ++ [')'])) =
      some ([], .input (String.mk (c :: rest))) :=
    palt_eq_first hin
  have hterm : pterminated (palt parse_input parse_alloc) multispace0
      ('I' :: 'n' :: 'p' :: 'u' :: 't' :: '(' :: ((c :: rest) ++ [')'])) =
      some ([], .input (String.mk (c :: rest))) :=
    pterminated_eq halt rfl
  have hdel : pdelimited multispace0 (palt parse_input parse_alloc) multispace0
      ('I' :: 'n' :: 'p' :: 'u' :: 't' :: '(' :: ((c :: rest) ++ [')'])) =
      some ([], .input (String.mk (c :: rest))) := by
    unfold pdelimited
    rw [ppreceded_eq h0]
    exact hterm
  unfold parse_hint
  rw [hdel]
  have hmk : String.mk (c :: rest) = name := by
    rw [← hname]
    rfl
  rw [hmk]

/-- C3 witness: the identifier `a` — `Input(a)` parses to `Input("a")`. -/
theorem c3_input_bare_identifier_witness :
    IsIdentStr ("a") ∧
    parse_hint ((("Input(") ++ ("a") ++ (")")).toList) = some ([], .input ("a")) :=
  have hid : IsIdentStr ("a") :=
    ⟨'a', [], rfl, by decide, fun x hx => absurd hx (List.not_mem_nil x)⟩
  ⟨hid, c3_input_bare_identifier ("a") hid⟩

end JuvixCairoVm
